import Mathlib

/-!
Verification development for the vcpkg `upgrade` command
(`toolsrc/src/vcpkg/commands.upgrade.cpp`) and the package-graph
resolution / install-plan execution core it drives.

Pure shallow embedding: the classification loop, the grouped error
reporting, the dry-run gate and the build-options pass are translated
directly from `perform_and_exit`; the parts of the core that live
outside the provided sources (`Dependencies::PackageGraph::serialize`,
`Install::perform`, `Update::find_outdated_packages`) are modelled from
the specification, as marked in their doc comments.
-/

namespace VcpkgUpgrade

/-- A package identity: name plus target triplet (`PackageSpec` in the
source).  Ordering is name first, then triplet. -/
structure PackageSpec where
  name : String
  triplet : String
deriving DecidableEq, Repr

/-- Lexicographic comparison of character lists (the order underlying
`std::string::operator<`). -/
def charListLt : List Char → List Char → Bool
  | [], [] => false
  | [], _ :: _ => true
  | _ :: _, [] => false
  | a :: as, b :: bs => if a = b then charListLt as bs else decide (a < b)

/-- Strict string comparison over the underlying character data. -/
def strLt (a b : String) : Bool := charListLt a.data b.data

/-- The `operator<=` induced by `Util::sort`'s `PackageSpec::operator<`:
lexicographic on (name, triplet). -/
def specLe (a b : PackageSpec) : Bool :=
  if a.name = b.name then strLt a.triplet b.triplet || decide (a.triplet = b.triplet)
  else strLt a.name b.name

/-- Insertion step of the sort modelling `Util::sort`. -/
def insertSorted (x : PackageSpec) : List PackageSpec → List PackageSpec
  | [] => [x]
  | y :: ys => if specLe x y then x :: y :: ys else y :: insertSorted x ys

/-- Sorting a list of specs, modelling `Util::sort` (std::sort with
`PackageSpec::operator<`). -/
def sortSpecs (l : List PackageSpec) : List PackageSpec :=
  l.foldr insertSorted []

/-- One installed-status record of the `StatusParagraphs` database:
the spec plus the installed package version (`package.version`). -/
structure StatusParagraph where
  spec : PackageSpec
  version : String
deriving DecidableEq, Repr

/-- The installed-status database (`StatusParagraphs`), as the list of
fully-installed records. -/
abbrev StatusDb := List StatusParagraph

/-- `status_db.find_installed(spec)`: look up the installed record of a
spec; `none` plays the role of `status_db.end()`. -/
def find_installed (db : StatusDb) (s : PackageSpec) : Option StatusParagraph :=
  db.find? (fun p => decide (p.spec = s))

/-- The data of a port's CONTROL file that the core reads: the declared
version (`core_paragraph->version`) and dependency names. -/
structure SourceControlFile where
  version : String
  depends : List String
deriving DecidableEq, Repr

/-- The port catalog (`PathsPortFileProvider`): an association list from
port name to its control file. -/
abbrev PortProvider := List (String × SourceControlFile)

/-- `provider.get_control_file(name)`. -/
def get_control_file (prov : PortProvider) (n : String) : Option SourceControlFile :=
  (prov.find? (fun p => decide (p.1 = n))).map (·.2)

/-- The four buckets filled by the explicit-spec loop of
`perform_and_exit` (lines 72–104). -/
structure ClassifyResult where
  not_installed : List PackageSpec
  no_portfile : List PackageSpec
  to_upgrade : List PackageSpec
  up_to_date : List PackageSpec
deriving DecidableEq, Repr

/-- The empty buckets before the loop runs. -/
def ClassifyResult.initial : ClassifyResult := ⟨[], [], [], []⟩

/-- One iteration of the explicit-spec loop (lines 77–104): a spec not
found in the status database is pushed to `not_installed`; then,
independently, if its control file loads and it is installed, version
inequality sends it to `to_upgrade` and equality to `up_to_date`, while
a missing control file sends it to `no_portfile`. -/
def classifyStep (db : StatusDb) (prov : PortProvider) (acc : ClassifyResult)
    (s : PackageSpec) : ClassifyResult :=
  let it := find_installed db s
  let acc1 :=
    if it.isNone then { acc with not_installed := acc.not_installed ++ [s] } else acc
  match get_control_file prov s.name with
  | some scf =>
    match it with
    | some p =>
      if scf.version ≠ p.version then
        { acc1 with to_upgrade := acc1.to_upgrade ++ [s] }
      else
        { acc1 with up_to_date := acc1.up_to_date ++ [s] }
    | none => acc1
  | none => { acc1 with no_portfile := acc1.no_portfile ++ [s] }

/-- The whole explicit-spec loop over the requested specs. -/
def classify (db : StatusDb) (prov : PortProvider) (specs : List PackageSpec) :
    ClassifyResult :=
  specs.foldl (classifyStep db prov) ClassifyResult.initial

/-- Reasons attached to Build actions in the data model. -/
inductive BuildReason
  | notInstalled
  | versionMismatch
  | dependencyChanged
  | explicitRebuild
deriving DecidableEq, Repr

/-- Input errors of a single upgrade request. -/
inductive RequestError
  | notInstalled
  | noPortfile
deriving DecidableEq, Repr

/-- Outcome of one `request_upgrade` call. -/
inductive UpgradeOutcome
  | alreadySatisfied
  | build (reason : BuildReason)
  | err (e : RequestError)
deriving DecidableEq, Repr

/-- Modelled from the spec: `PackageGraph::request_upgrade`
(`Dependencies::PackageGraph::upgrade` lives in `dependencies.cpp`,
which is not among the provided sources).  It requires the identity to
be installed and present in the catalog, and compares installed and
catalog versions by equality: equal versions yield AlreadySatisfied,
any inequality queues a Build with reason VersionMismatch. -/
def request_upgrade (db : StatusDb) (prov : PortProvider) (s : PackageSpec) :
    UpgradeOutcome :=
  match find_installed db s with
  | none => .err .notInstalled
  | some p =>
    match get_control_file prov s.name with
    | none => .err .noPortfile
    | some scf =>
      if scf.version = p.version then .alreadySatisfied
      else .build .versionMismatch

/-- One action of a resolved install plan (the spec's tagged union:
Build, AlreadySatisfied, Remove). -/
inductive Action
  | build (spec : PackageSpec) (reason : BuildReason)
  | alreadySatisfied (spec : PackageSpec)
  | remove (spec : PackageSpec)
deriving DecidableEq, Repr

/-- The identity an action is about. -/
def Action.spec : Action → PackageSpec
  | .build s _ => s
  | .alreadySatisfied s => s
  | .remove s => s

/-- Declared dependencies of an identity, read from the catalog: each
dependency name resolves at the requesting identity's triplet.  An
identity with no catalog entry declares no dependencies. -/
def depsOf (prov : PortProvider) (s : PackageSpec) : List PackageSpec :=
  match get_control_file prov s.name with
  | some scf => scf.depends.map (fun d => ⟨d, s.triplet⟩)
  | none => []

/-- Every identity a resolution could ever touch: the queued requests
plus every catalog name and declared dependency name, paired with each
queued triplet; deduplicated. -/
def universeList (prov : PortProvider) (queued : List PackageSpec) : List PackageSpec :=
  let names : List String := prov.flatMap (fun p => p.1 :: p.2.depends)
  let triplets : List String := queued.map (fun s => s.triplet)
  let crossed : List PackageSpec := triplets.flatMap (fun t => names.map (fun n => ⟨n, t⟩))
  (queued ++ crossed).dedup

/-- One expansion step of the reachable-set computation: keep every
universe member that is already reached or is a declared dependency of
a reached member. -/
def reachStep (prov : PortProvider) (u : List PackageSpec) (r : List PackageSpec) :
    List PackageSpec :=
  u.filter (fun s => decide (s ∈ r) || decide (∃ p ∈ r, s ∈ depsOf prov p))

/-- Modelled from the spec: the set of identities reachable from the
queued requests through declared dependencies (the subgraph
`PackageGraph::serialize` walks; `dependencies.cpp` is not among the
provided sources).  Computed as a bounded fixpoint iteration inside the
finite universe. -/
def reachableSet (prov : PortProvider) (queued : List PackageSpec) : List PackageSpec :=
  let u := universeList prov queued
  (reachStep prov u)^[u.length + 1] (u.filter (fun s => decide (s ∈ queued)))

/-- The k-th stage of the bounded fixpoint iteration computing the
reachable set. -/
def reachIter (prov : PortProvider) (queued : List PackageSpec) (k : Nat) :
    List PackageSpec :=
  (reachStep prov (universeList prov queued))^[k]
    ((universeList prov queued).filter (fun s => decide (s ∈ queued)))

/-- Reachability from the queued requests through declared
dependencies, as a relation. -/
inductive Reachable (prov : PortProvider) (queued : List PackageSpec) : PackageSpec → Prop
  | root {s : PackageSpec} : s ∈ queued → Reachable prov queued s
  | step {p d : PackageSpec} : Reachable prov queued p → d ∈ depsOf prov p →
      Reachable prov queued d

/-- Structured resolution errors (spec §4.1/§7). -/
inductive ResolveError
  | dependencyCycle (members : List PackageSpec)
  | noPortfileErr (specs : List PackageSpec)
deriving DecidableEq, Repr

/-- Whether an identity can be emitted next: all of its declared
dependencies already appear in the emitted prefix of the plan. -/
def readyFor (prov : PortProvider) (emitted : List Action) (s : PackageSpec) : Bool :=
  decide (∀ d ∈ depsOf prov s, ∃ a ∈ emitted, Action.spec a = d)

/-- The action emitted for an identity once its dependencies are
placed: queued requests become Builds with reason VersionMismatch; an
installed identity all of whose dependencies are themselves satisfied
stays AlreadySatisfied; anything else is rebuilt with reason
DependencyChanged. -/
def emitAction (db : StatusDb) (queued : List PackageSpec) (prov : PortProvider)
    (emitted : List Action) (s : PackageSpec) : Action :=
  if s ∈ queued then .build s .versionMismatch
  else if (find_installed db s).isSome ∧
      (∀ d ∈ depsOf prov s, Action.alreadySatisfied d ∈ emitted) then
    .alreadySatisfied s
  else .build s .dependencyChanged

/-- Modelled from the spec: the round-based stable topological sort at
the heart of `PackageGraph::serialize`.  Each round emits, in
deterministic order, every pending identity whose dependencies are all
already placed; if no identity is ready while some are pending, the
pending identities are mutually blocked and resolution fails with a
DependencyCycle error naming them. -/
def kahnLoop (db : StatusDb) (prov : PortProvider) (queued : List PackageSpec) :
    Nat → List Action → List PackageSpec → Except ResolveError (List Action)
  | _, emitted, [] => .ok emitted
  | 0, _, r :: rs => .error (.dependencyCycle (r :: rs))
  | fuel + 1, emitted, r :: rs =>
    let remaining := r :: rs
    let rdy := remaining.filter (readyFor prov emitted)
    if rdy = [] then .error (.dependencyCycle remaining)
    else
      kahnLoop db prov queued fuel
        (emitted ++ rdy.map (emitAction db queued prov emitted))
        (remaining.filter (fun s => !readyFor prov emitted s))

/-- Modelled from the spec: `PackageGraph::serialize`/`resolve()`
(`dependencies.cpp` is not among the provided sources).  It walks the
reachable dependency subgraph of the queued upgrade requests, produces
the plan by a stable topological sort with dependencies strictly before
dependents, fails fatally on a dependency cycle, and batch-reports
reachable identities that have no portfile and cannot be satisfied. -/
def resolve (db : StatusDb) (prov : PortProvider) (queued : List PackageSpec) :
    Except ResolveError (List Action) :=
  let r := sortSpecs (reachableSet prov queued)
  match kahnLoop db prov queued r.length [] r with
  | .error e => .error e
  | .ok plan =>
    let missing := r.filter (fun s =>
      decide (get_control_file prov s.name = none) &&
        (decide (s ∈ queued) || decide (find_installed db s = none)))
    if missing = [] then .ok plan else .error (.noPortfileErr missing)

/-- Per-action outcomes recorded in the execution summary. -/
inductive ActionOutcome
  | succeeded
  | failed
  | skippedDependencyFailed
  | skippedUpstreamAbort
deriving DecidableEq, Repr

/-- One row of the execution summary: identity, outcome, elapsed time. -/
structure SummaryEntry where
  spec : PackageSpec
  outcome : ActionOutcome
  elapsed : Nat
deriving DecidableEq, Repr

/-- The failure policy of the execution engine (`Install::KeepGoing`). -/
inductive KeepGoing
  | yes
  | no
deriving DecidableEq, Repr

/-- Execution-engine state: the summary rows recorded so far and the
identities for which the external build operation was invoked. -/
structure ExecState where
  entries : List SummaryEntry
  invoked : List PackageSpec
deriving DecidableEq, Repr

/-- Modelled from the spec: the Build step of `Install::perform`
(`install.cpp` is not among the provided sources).  A Build action is
skipped as UpstreamAbort once anything failed under FailFast, skipped
as DependencyFailed when a declared dependency was recorded with a
non-success outcome, and otherwise handed to the external build
operation, recording Succeeded or Failed with the elapsed time. -/
def execStepB (deps : PackageSpec → List PackageSpec) (buildOp : PackageSpec → Bool × Nat)
    (kg : KeepGoing) (st : ExecState) (s : PackageSpec) : ExecState :=
  if kg = .no ∧ (∃ e ∈ st.entries, e.outcome = .failed) then
    { st with entries := st.entries ++ [⟨s, .skippedUpstreamAbort, 0⟩] }
  else if ∃ d ∈ deps s, ∃ e ∈ st.entries, e.spec = d ∧ e.outcome ≠ .succeeded then
    { st with entries := st.entries ++ [⟨s, .skippedDependencyFailed, 0⟩] }
  else
    { entries := st.entries ++ [⟨s, if (buildOp s).1 then .succeeded else .failed, (buildOp s).2⟩],
      invoked := st.invoked ++ [s] }

/-- The execution engine as a fold over Build identities alone. -/
def execBS (deps : PackageSpec → List PackageSpec) (buildOp : PackageSpec → Bool × Nat)
    (kg : KeepGoing) (st : ExecState) (bs : List PackageSpec) : ExecState :=
  bs.foldl (execStepB deps buildOp kg) st

/-- Modelled from the spec: one step of `Install::perform`
(`install.cpp` is not among the provided sources).  AlreadySatisfied
and Remove actions are not executed; Build actions take the Build
step. -/
def execStep (deps : PackageSpec → List PackageSpec) (buildOp : PackageSpec → Bool × Nat)
    (kg : KeepGoing) (st : ExecState) (a : Action) : ExecState :=
  match a with
  | .alreadySatisfied _ => st
  | .remove _ => st
  | .build s _ => execStepB deps buildOp kg st s

/-- Modelled from the spec: the action loop of `Install::perform`,
processing the plan strictly in order. -/
def execPlan (deps : PackageSpec → List PackageSpec) (buildOp : PackageSpec → Bool × Nat)
    (kg : KeepGoing) (plan : List Action) : ExecState :=
  plan.foldl (execStep deps buildOp kg) ⟨[], []⟩

/-- The summary returned by the execution engine: all per-action rows
plus the total elapsed time. -/
structure InstallSummary where
  entries : List SummaryEntry
  total_elapsed_time : Nat
deriving DecidableEq, Repr

/-- Modelled from the spec: `Install::perform(plan, keep_going, ...)`,
returning the complete summary of the run. -/
def installPerform (deps : PackageSpec → List PackageSpec)
    (buildOp : PackageSpec → Bool × Nat) (kg : KeepGoing) (plan : List Action) :
    InstallSummary :=
  let st := execPlan deps buildOp kg plan
  ⟨st.entries, (st.entries.map (·.elapsed)).sum⟩

/-- What the caller prints after `Install::perform` returns (lines
169–178): the total elapsed time is always printed; `summary.print()`
— the per-action outcome table — runs only under `--keep-going`. -/
structure ExecReport where
  totalElapsedPrinted : Bool
  summaryTablePrinted : Bool
deriving DecidableEq, Repr

/-- The caller-side report of lines 171–176. -/
def callerReport (kg : KeepGoing) : ExecReport :=
  ⟨true, decide (kg = .yes)⟩

/-- `Build::BuildPackageOptions`: the three flags set by the caller. -/
structure BuildPackageOptions where
  use_head_version : Bool
  allow_downloads : Bool
  clean_buildtrees : Bool
deriving DecidableEq, Repr

/-- The plan type of an install action. -/
inductive InstallPlanType
  | alreadyInstalled
  | buildAndInstall (reason : BuildReason)
deriving DecidableEq, Repr

/-- An install action of the serialized plan: identity, plan type, and
its build options. -/
structure InstallPlanAction where
  spec : PackageSpec
  plan_type : InstallPlanType
  build_options : BuildPackageOptions
deriving DecidableEq, Repr

/-- A remove action of the serialized plan. -/
structure RemovePlanAction where
  spec : PackageSpec
deriving DecidableEq, Repr

/-- `Dependencies::AnyAction`: at most one install action and at most
one remove action. -/
structure AnyAction where
  install_action : Option InstallPlanAction
  remove_action : Option RemovePlanAction
deriving DecidableEq, Repr

/-- The uniform options of lines 144–148: UseHeadVersion::NO,
AllowDownloads::YES, CleanBuildtrees::NO. -/
def install_plan_options : BuildPackageOptions := ⟨false, true, false⟩

/-- The caller-side pass of lines 151–157: for every action of the
plan that carries an install action, overwrite its `build_options`. -/
def setBuildOptions (opts : BuildPackageOptions) (plan : List AnyAction) :
    List AnyAction :=
  plan.map (fun a =>
    match a.install_action with
    | some ia => { a with install_action := some { ia with build_options := opts } }
    | none => a)

/-- How the command terminates: `Checks::exit_success` or one of the
failing exits (`check_exit` with a false condition, `exit_fail`). -/
inductive ExitKind
  | success
  | fail
deriving DecidableEq, Repr

/-- Observable trace of one `perform_and_exit` invocation: how it
exited, which identities were passed to `graph.upgrade`, whether the
plan was serialized / printed, whether the execution engine ran, the
three grouped report lists, and the two caller-side summary prints. -/
structure CmdTrace where
  exit : ExitKind
  upgradeCalls : List PackageSpec
  planSerialized : Bool
  planPrinted : Bool
  performInvoked : Bool
  upToDateReport : List PackageSpec
  notInstalledReport : List PackageSpec
  noPortfileReport : List PackageSpec
  totalElapsedPrinted : Bool
  summaryTablePrinted : Bool
  summary : Option InstallSummary
deriving DecidableEq, Repr

/-- Modelled from the spec: `Update::find_outdated_packages`
(`update.cpp` is not among the provided sources) — every installed
record whose catalog entry exists and carries a different version. -/
def find_outdated_packages (prov : PortProvider) (db : StatusDb) : List PackageSpec :=
  db.filterMap (fun p =>
    match get_control_file prov p.spec.name with
    | some scf => if scf.version ≠ p.version then some p.spec else none
    | none => none)

/-- The shared tail of `perform_and_exit` (lines 140–178): serialize
the plan from the queued upgrades, fail if it is empty, apply the
uniform build options, print the plan, stop with a failing exit unless
`--no-dry-run` was passed, and otherwise run the execution engine and
report. -/
def finishPlan (no_dry_run : Bool) (keep_going : KeepGoing) (db : StatusDb)
    (prov : PortProvider) (buildOp : PackageSpec → Bool × Nat)
    (queued upToDate : List PackageSpec) : CmdTrace :=
  match resolve db prov queued with
  | .error _ =>
    ⟨.fail, queued, true, false, false, upToDate, [], [], false, false, none⟩
  | .ok plan =>
    if plan = [] then
      ⟨.fail, queued, true, false, false, upToDate, [], [], false, false, none⟩
    else
      if no_dry_run = false then
        ⟨.fail, queued, true, true, false, upToDate, [], [], false, false, none⟩
      else
        let report := callerReport keep_going
        ⟨.success, queued, true, true, true, upToDate, [], [],
          report.totalElapsedPrinted, report.summaryTablePrinted,
          some (installPerform (depsOf prov) buildOp keep_going plan)⟩

/-- The whole of `perform_and_exit` (lines 34–179) as a function from
the command inputs to its observable trace. -/
def perform_and_exit (no_dry_run : Bool) (keep_going : KeepGoing) (db : StatusDb)
    (prov : PortProvider) (specs : List PackageSpec)
    (buildOp : PackageSpec → Bool × Nat) : CmdTrace :=
  if specs = [] then
    let outdated := find_outdated_packages prov db
    if outdated = [] then
      ⟨.success, [], false, false, false, [], [], [], false, false, none⟩
    else
      finishPlan no_dry_run keep_going db prov buildOp outdated []
  else
    let c := classify db prov specs
    let ni := sortSpecs c.not_installed
    let np := sortSpecs c.no_portfile
    let utd := sortSpecs c.up_to_date
    let tu := sortSpecs c.to_upgrade
    if ni = [] ∧ np = [] then
      if tu = [] then
        ⟨.success, [], false, false, false, utd, [], [], false, false, none⟩
      else
        finishPlan no_dry_run keep_going db prov buildOp tu utd
    else
      ⟨.fail, [], false, false, false, utd, ni, np, false, false, none⟩

/-- The condition under which the loop pushes a spec to `not_installed`
(line 80). -/
def isNotInstalledB (db : StatusDb) (s : PackageSpec) : Bool :=
  (find_installed db s).isNone

/-- The condition under which the loop pushes a spec to `no_portfile`
(line 100). -/
def noPortfileB (prov : PortProvider) (s : PackageSpec) : Bool :=
  (get_control_file prov s.name).isNone

/-- The condition under which the loop pushes a spec to `to_upgrade`
(line 90): installed, catalog entry present, versions differ. -/
def toUpgradeB (db : StatusDb) (prov : PortProvider) (s : PackageSpec) : Bool :=
  match find_installed db s, get_control_file prov s.name with
  | some p, some scf => decide (scf.version ≠ p.version)
  | _, _ => false

/-- The condition under which the loop pushes a spec to `up_to_date`
(line 94): installed, catalog entry present, versions equal. -/
def upToDateB (db : StatusDb) (prov : PortProvider) (s : PackageSpec) : Bool :=
  match find_installed db s, get_control_file prov s.name with
  | some p, some scf => decide (scf.version = p.version)
  | _, _ => false

/-- The identities of the Build actions of a plan, in plan order. -/
def buildSpecs (plan : List Action) : List PackageSpec :=
  plan.filterMap (fun a =>
    match a with
    | .build s _ => some s
    | _ => none)

/-- The recorded outcome of an identity in an execution state. -/
def outcomeOf (st : ExecState) (s : PackageSpec) : Option ActionOutcome :=
  (st.entries.find? (fun e => decide (e.spec = s))).map (fun e => e.outcome)

/-- Transitive dependence of one identity on another through declared
dependencies, every intermediate hop being one of the plan's Build
identities. -/
inductive DependsVia (deps : PackageSpec → List PackageSpec)
    (builds : List PackageSpec) : PackageSpec → PackageSpec → Prop
  | direct {s b : PackageSpec} : b ∈ deps s → DependsVia deps builds s b
  | step {s m b : PackageSpec} : m ∈ deps s → m ∈ builds →
      DependsVia deps builds m b → DependsVia deps builds s b

/-- Decidable check that a list of Build identities is topologically
ordered: every declared dependency of each member that is itself a
member occurs strictly earlier. -/
def topoList (deps : PackageSpec → List PackageSpec) :
    List PackageSpec → List PackageSpec → Bool
  | _, [] => true
  | seen, s :: rest =>
    decide (∀ d ∈ deps s, d ∈ seen ∨ d ∉ seen ++ s :: rest) &&
      topoList deps (seen ++ [s]) rest

/-- Topological ordering of a whole Build-identity list. -/
def topoOkB (deps : PackageSpec → List PackageSpec) (bs : List PackageSpec) : Bool :=
  topoList deps [] bs

/-- A nonempty set of identities each of which declares a dependency
inside the set: the witness form of a dependency cycle. -/
def CycleSet (prov : PortProvider) (c : List PackageSpec) : Prop :=
  c ≠ [] ∧ ∀ x ∈ c, ∃ y ∈ c, y ∈ depsOf prov x

/-- A three-node dependency chain a ← b ← c (c depends on b, b on a),
used to exercise the execution engine on concrete inputs. -/
def chainDeps : PackageSpec → List PackageSpec := fun s =>
  if s.name = "c" then [⟨"b", "x"⟩] else if s.name = "b" then [⟨"a", "x"⟩] else []

/-- A build operation that fails exactly on the chain's middle node. -/
def chainBuildOp : PackageSpec → Bool × Nat := fun s => (decide (s.name ≠ "b"), 1)

/-- The chain's install plan, in dependency order. -/
def chainPlan : List Action :=
  [.build ⟨"a", "x"⟩ .versionMismatch, .build ⟨"b", "x"⟩ .versionMismatch,
   .build ⟨"c", "x"⟩ .versionMismatch]

theorem insertSorted_ne_nil (x : PackageSpec) (l : List PackageSpec) :
    insertSorted x l ≠ [] := by
  cases l with
  | nil => simp [insertSorted]
  | cons y ys =>
    rw [insertSorted]
    split <;> simp

theorem mem_insertSorted {a x : PackageSpec} {l : List PackageSpec} :
    a ∈ insertSorted x l ↔ a = x ∨ a ∈ l := by
  induction l with
  | nil => simp [insertSorted]
  | cons y ys ih =>
    rw [insertSorted]
    split
    · simp
    · simp only [List.mem_cons, ih]
      tauto

theorem sortSpecs_cons (x : PackageSpec) (xs : List PackageSpec) :
    sortSpecs (x :: xs) = insertSorted x (sortSpecs xs) := rfl

theorem mem_sortSpecs {a : PackageSpec} {l : List PackageSpec} :
    a ∈ sortSpecs l ↔ a ∈ l := by
  induction l with
  | nil => simp [sortSpecs]
  | cons x xs ih =>
    rw [sortSpecs_cons, mem_insertSorted, ih]
    simp

theorem sortSpecs_eq_nil_iff {l : List PackageSpec} : sortSpecs l = [] ↔ l = [] := by
  cases l with
  | nil => simp [sortSpecs]
  | cons x xs =>
    rw [sortSpecs_cons]
    simp [insertSorted_ne_nil]

theorem classify_foldl (db : StatusDb) (prov : PortProvider)
    (specs : List PackageSpec) (acc : ClassifyResult) :
    specs.foldl (classifyStep db prov) acc =
      ⟨acc.not_installed ++ specs.filter (isNotInstalledB db),
       acc.no_portfile ++ specs.filter (noPortfileB prov),
       acc.to_upgrade ++ specs.filter (toUpgradeB db prov),
       acc.up_to_date ++ specs.filter (upToDateB db prov)⟩ := by
  induction specs generalizing acc with
  | nil => simp
  | cons s rest ih =>
    rw [List.foldl_cons, ih]
    cases h1 : find_installed db s with
    | none =>
      cases h2 : get_control_file prov s.name with
      | none =>
        simp [classifyStep, isNotInstalledB, noPortfileB, toUpgradeB, upToDateB,
          h1, h2, List.filter_cons]
      | some scf =>
        simp [classifyStep, isNotInstalledB, noPortfileB, toUpgradeB, upToDateB,
          h1, h2, List.filter_cons]
    | some p =>
      cases h2 : get_control_file prov s.name with
      | none =>
        simp [classifyStep, isNotInstalledB, noPortfileB, toUpgradeB, upToDateB,
          h1, h2, List.filter_cons]
      | some scf =>
        by_cases hv : scf.version = p.version <;>
          simp [classifyStep, isNotInstalledB, noPortfileB, toUpgradeB, upToDateB,
            h1, h2, hv, List.filter_cons]

theorem classify_eq (db : StatusDb) (prov : PortProvider) (specs : List PackageSpec) :
    classify db prov specs =
      ⟨specs.filter (isNotInstalledB db), specs.filter (noPortfileB prov),
       specs.filter (toUpgradeB db prov), specs.filter (upToDateB db prov)⟩ := by
  rw [classify, classify_foldl]
  rfl

/-- C1: for an identity that is installed and present in the catalog,
`request_upgrade` yields AlreadySatisfied exactly when the installed
and catalog versions are equal, and a Build with reason VersionMismatch
exactly when they differ in any way (equality, not ordering); the
command's own loop files such a spec under `up_to_date` (reported
up-to-date, not rebuilt) exactly in the equal case and under
`to_upgrade` exactly in the unequal case. -/
theorem upgrade_compares_versions_by_equality
    (db : StatusDb) (prov : PortProvider) (s : PackageSpec)
    (p : StatusParagraph) (scf : SourceControlFile)
    (hi : find_installed db s = some p)
    (hc : get_control_file prov s.name = some scf) :
    (request_upgrade db prov s = .alreadySatisfied ↔ scf.version = p.version) ∧
    (request_upgrade db prov s = .build .versionMismatch ↔ scf.version ≠ p.version) ∧
    (classify db prov [s]).up_to_date = (if scf.version = p.version then [s] else []) ∧
    (classify db prov [s]).to_upgrade = (if scf.version = p.version then [] else [s]) := by
  by_cases hv : scf.version = p.version <;>
    simp [request_upgrade, hi, hc, hv, classify_eq, List.filter,
      toUpgradeB, upToDateB]

theorem upgrade_compares_versions_by_equality_witness :
    (request_upgrade [⟨⟨"zlib", "x64"⟩, "1.0"⟩] [("zlib", ⟨"1.0", []⟩)]
        ⟨"zlib", "x64"⟩ = .alreadySatisfied) ∧
    (request_upgrade [⟨⟨"zlib", "x64"⟩, "1.0"⟩] [("zlib", ⟨"1.1", []⟩)]
        ⟨"zlib", "x64"⟩ = .build .versionMismatch) :=
  ⟨(upgrade_compares_versions_by_equality [⟨⟨"zlib", "x64"⟩, "1.0"⟩]
      [("zlib", ⟨"1.0", []⟩)] ⟨"zlib", "x64"⟩ ⟨⟨"zlib", "x64"⟩, "1.0"⟩ ⟨"1.0", []⟩
      rfl rfl).1.mpr rfl,
   (upgrade_compares_versions_by_equality [⟨⟨"zlib", "x64"⟩, "1.0"⟩]
      [("zlib", ⟨"1.1", []⟩)] ⟨"zlib", "x64"⟩ ⟨⟨"zlib", "x64"⟩, "1.0"⟩ ⟨"1.1", []⟩
      rfl rfl).2.1.mpr (by decide)⟩

/-- C10: a requested spec that is both absent from the installed
database and without a catalog entry is pushed to both the
`not_installed` and the `no_portfile` error lists (the loop has no
else between the two checks), so it is reported under both headings. -/
theorem absent_spec_lands_in_both_error_lists
    (db : StatusDb) (prov : PortProvider) (specs : List PackageSpec) (s : PackageSpec)
    (hs : s ∈ specs)
    (h1 : find_installed db s = none)
    (h2 : get_control_file prov s.name = none) :
    s ∈ (classify db prov specs).not_installed ∧
    s ∈ (classify db prov specs).no_portfile := by
  rw [classify_eq]
  exact ⟨List.mem_filter.mpr ⟨hs, by simp [isNotInstalledB, h1]⟩,
    List.mem_filter.mpr ⟨hs, by simp [noPortfileB, h2]⟩⟩

theorem absent_spec_lands_in_both_error_lists_witness :
    ⟨"ghost", "x64"⟩ ∈ (classify [] [] [⟨"ghost", "x64"⟩]).not_installed ∧
    ⟨"ghost", "x64"⟩ ∈ (classify [] [] [⟨"ghost", "x64"⟩]).no_portfile :=
  absent_spec_lands_in_both_error_lists [] [] [⟨"ghost", "x64"⟩] ⟨"ghost", "x64"⟩
    (by simp) rfl rfl

theorem finishPlan_upgradeCalls (ndr : Bool) (kg : KeepGoing) (db : StatusDb)
    (prov : PortProvider) (buildOp : PackageSpec → Bool × Nat)
    (q utd : List PackageSpec) :
    (finishPlan ndr kg db prov buildOp q utd).upgradeCalls = q := by
  rcases hres : resolve db prov q with e | plan
  · simp [finishPlan, hres]
  · by_cases hp : plan = [] <;> by_cases hd : ndr = false <;> simp [finishPlan, hres, hp, hd]

theorem finishPlan_dry (kg : KeepGoing) (db : StatusDb) (prov : PortProvider)
    (buildOp : PackageSpec → Bool × Nat) (q utd : List PackageSpec) :
    (finishPlan false kg db prov buildOp q utd).performInvoked = false ∧
    ((finishPlan false kg db prov buildOp q utd).planPrinted = true →
      (finishPlan false kg db prov buildOp q utd).exit = .fail) := by
  rcases hres : resolve db prov q with e | plan
  · simp [finishPlan, hres]
  · by_cases hp : plan = [] <;> simp [finishPlan, hres, hp]

/-- C9: without `--no-dry-run` the execution engine is never invoked,
and whenever the computed plan is printed the command terminates with a
failing exit: the command is a dry run by default, and the installed
registry (mutated only by the engine) is left unchanged. -/
theorem dry_run_never_executes (kg : KeepGoing) (db : StatusDb) (prov : PortProvider)
    (specs : List PackageSpec) (buildOp : PackageSpec → Bool × Nat) :
    (perform_and_exit false kg db prov specs buildOp).performInvoked = false ∧
    ((perform_and_exit false kg db prov specs buildOp).planPrinted = true →
      (perform_and_exit false kg db prov specs buildOp).exit = .fail) := by
  by_cases hs : specs = []
  · subst hs
    by_cases ho : find_outdated_packages prov db = []
    · simp [perform_and_exit, ho]
    · simpa [perform_and_exit, ho] using
        finishPlan_dry kg db prov buildOp (find_outdated_packages prov db) []
  · simp only [perform_and_exit, if_neg hs]
    by_cases h1 : sortSpecs (classify db prov specs).not_installed = [] ∧
        sortSpecs (classify db prov specs).no_portfile = []
    · by_cases h2 : sortSpecs (classify db prov specs).to_upgrade = []
      · simp [h1, h2]
      · simpa [h1, h2] using
          finishPlan_dry kg db prov buildOp
            (sortSpecs (classify db prov specs).to_upgrade)
            (sortSpecs (classify db prov specs).up_to_date)
    · simp [h1]

theorem dry_run_never_executes_witness :
    (perform_and_exit false .yes [⟨⟨"zlib", "x64"⟩, "1.0"⟩] [("zlib", ⟨"1.1", []⟩)]
        [⟨"zlib", "x64"⟩] (fun _ => (true, 1))).planPrinted = true ∧
    (perform_and_exit false .yes [⟨⟨"zlib", "x64"⟩, "1.0"⟩] [("zlib", ⟨"1.1", []⟩)]
        [⟨"zlib", "x64"⟩] (fun _ => (true, 1))).exit = .fail :=
  ⟨by decide,
   (dry_run_never_executes .yes [⟨⟨"zlib", "x64"⟩, "1.0"⟩] [("zlib", ⟨"1.1", []⟩)]
      [⟨"zlib", "x64"⟩] (fun _ => (true, 1))).2 (by decide)⟩

/-- C2: whenever the classification of the requested specs finds any
NotInstalled or NoPortfile input error, the command fails as a whole:
it reports the complete sorted lists of both error groups (every spec
with either problem is included), passes nothing to `graph.upgrade`,
never serializes a plan, and never invokes the execution engine. -/
theorem input_errors_batched_and_fatal (ndr : Bool) (kg : KeepGoing) (db : StatusDb)
    (prov : PortProvider) (specs : List PackageSpec) (buildOp : PackageSpec → Bool × Nat)
    (h : (classify db prov specs).not_installed ≠ [] ∨
      (classify db prov specs).no_portfile ≠ []) :
    (perform_and_exit ndr kg db prov specs buildOp).exit = .fail ∧
    (perform_and_exit ndr kg db prov specs buildOp).notInstalledReport =
      sortSpecs (classify db prov specs).not_installed ∧
    (perform_and_exit ndr kg db prov specs buildOp).noPortfileReport =
      sortSpecs (classify db prov specs).no_portfile ∧
    (perform_and_exit ndr kg db prov specs buildOp).upgradeCalls = [] ∧
    (perform_and_exit ndr kg db prov specs buildOp).planSerialized = false ∧
    (perform_and_exit ndr kg db prov specs buildOp).performInvoked = false ∧
    (∀ s ∈ specs, find_installed db s = none →
      s ∈ (perform_and_exit ndr kg db prov specs buildOp).notInstalledReport) ∧
    (∀ s ∈ specs, get_control_file prov s.name = none →
      s ∈ (perform_and_exit ndr kg db prov specs buildOp).noPortfileReport) := by
  have hs : specs ≠ [] := by
    rintro rfl
    simp [classify] at h
    rcases h with h | h <;> exact h rfl
  have hcond : ¬(sortSpecs (classify db prov specs).not_installed = [] ∧
      sortSpecs (classify db prov specs).no_portfile = []) := by
    rcases h with h | h
    · exact fun hc => h (sortSpecs_eq_nil_iff.mp hc.1)
    · exact fun hc => h (sortSpecs_eq_nil_iff.mp hc.2)
  simp only [perform_and_exit, if_neg hs, if_neg hcond]
  refine ⟨trivial, trivial, trivial, trivial, trivial, trivial, ?_, ?_⟩
  · intro s hmem hni
    refine mem_sortSpecs.mpr ?_
    rw [classify_eq]
    exact List.mem_filter.mpr ⟨hmem, by simp [isNotInstalledB, hni]⟩
  · intro s hmem hnp
    refine mem_sortSpecs.mpr ?_
    rw [classify_eq]
    exact List.mem_filter.mpr ⟨hmem, by simp [noPortfileB, hnp]⟩

theorem input_errors_batched_and_fatal_witness :
    ((classify [⟨⟨"zlib", "x64"⟩, "1.0"⟩] [("zlib", ⟨"1.1", []⟩)]
        [⟨"zlib", "x64"⟩, ⟨"ghost", "x64"⟩]).not_installed ≠ [] ∨
      (classify [⟨⟨"zlib", "x64"⟩, "1.0"⟩] [("zlib", ⟨"1.1", []⟩)]
        [⟨"zlib", "x64"⟩, ⟨"ghost", "x64"⟩]).no_portfile ≠ []) ∧
    (perform_and_exit true .yes [⟨⟨"zlib", "x64"⟩, "1.0"⟩] [("zlib", ⟨"1.1", []⟩)]
        [⟨"zlib", "x64"⟩, ⟨"ghost", "x64"⟩] (fun _ => (true, 1))).exit = .fail :=
  ⟨by decide,
   (input_errors_batched_and_fatal true .yes [⟨⟨"zlib", "x64"⟩, "1.0"⟩]
      [("zlib", ⟨"1.1", []⟩)] [⟨"zlib", "x64"⟩, ⟨"ghost", "x64"⟩]
      (fun _ => (true, 1)) (by decide)).1⟩

/-- C7: with an empty request list the command queues an upgrade for
exactly the outdated packages discovered by comparing every installed
record against its catalog entry, and when none is outdated it exits
successfully without ever serializing a plan or running the engine. -/
theorem empty_request_upgrades_all_outdated (ndr : Bool) (kg : KeepGoing)
    (db : StatusDb) (prov : PortProvider) (buildOp : PackageSpec → Bool × Nat) :
    (perform_and_exit ndr kg db prov [] buildOp).upgradeCalls =
      find_outdated_packages prov db ∧
    (find_outdated_packages prov db = [] →
      (perform_and_exit ndr kg db prov [] buildOp).exit = .success ∧
      (perform_and_exit ndr kg db prov [] buildOp).planSerialized = false ∧
      (perform_and_exit ndr kg db prov [] buildOp).performInvoked = false) := by
  by_cases ho : find_outdated_packages prov db = []
  · simp [perform_and_exit, ho]
  · simp [perform_and_exit, ho, finishPlan_upgradeCalls]

theorem empty_request_upgrades_all_outdated_witness :
    find_outdated_packages [] [] = [] ∧
    (perform_and_exit true .yes [] [] [] (fun _ => (true, 1))).exit = .success :=
  ⟨rfl, ((empty_request_upgrades_all_outdated true .yes [] [] (fun _ => (true, 1))).2 rfl).1⟩

/-- C8: the caller-side pass that overwrites BuildOptions is a frame:
the plan keeps its length, its sequence of install identities, and, at
every position, the remove action and every field of the install action
except `build_options` (which becomes exactly the supplied options). -/
theorem build_options_pass_is_frame (opts : BuildPackageOptions) (plan : List AnyAction) :
    (setBuildOptions opts plan).length = plan.length ∧
    (setBuildOptions opts plan).map (fun a => a.install_action.map (fun ia => ia.spec)) =
      plan.map (fun a => a.install_action.map (fun ia => ia.spec)) ∧
    ∀ i : Nat,
      ((setBuildOptions opts plan)[i]?).map (fun a => a.remove_action) =
        (plan[i]?).map (fun a => a.remove_action) ∧
      ((setBuildOptions opts plan)[i]?).bind (fun a => a.install_action) =
        ((plan[i]?).bind (fun a => a.install_action)).map
          (fun ia => ⟨ia.spec, ia.plan_type, opts⟩) := by
  refine ⟨by simp [setBuildOptions], ?_, ?_⟩
  · induction plan with
    | nil => rfl
    | cons a l ih =>
      simp only [setBuildOptions, List.map_cons] at *
      cases hia : a.install_action <;> simp [hia, ih]
  · intro i
    cases hp : plan[i]? with
    | none => simp [setBuildOptions, List.getElem?_map, hp]
    | some a =>
      cases hia : a.install_action <;>
        simp [setBuildOptions, List.getElem?_map, hp, hia]

theorem exec_entries_specs (deps : PackageSpec → List PackageSpec)
    (buildOp : PackageSpec → Bool × Nat) (kg : KeepGoing) (plan : List Action)
    (st : ExecState) :
    ((plan.foldl (execStep deps buildOp kg) st).entries).map (fun e => e.spec) =
      st.entries.map (fun e => e.spec) ++ buildSpecs plan := by
  induction plan generalizing st with
  | nil => simp [buildSpecs]
  | cons a rest ih =>
    rw [List.foldl_cons, ih]
    cases a with
    | build s r =>
      simp only [execStep, execStepB]
      split
      · simp [buildSpecs, List.filterMap_cons]
      · split <;> simp [buildSpecs, List.filterMap_cons]
    | alreadySatisfied s => simp [execStep, buildSpecs, List.filterMap_cons]
    | remove s => simp [execStep, buildSpecs, List.filterMap_cons]

/-- C6 (amended): under either failure policy the engine yields a
complete Summary — one row per Build action of the plan, in order, each
with an outcome and elapsed time, plus a total elapsed time — and the
caller always prints the total elapsed time; the per-action outcome
table, however, is printed exactly when the KeepGoing policy was used. -/
theorem summary_complete_report_policy_dependent (deps : PackageSpec → List PackageSpec)
    (buildOp : PackageSpec → Bool × Nat) (kg : KeepGoing) (plan : List Action) :
    (installPerform deps buildOp kg plan).entries.map (fun e => e.spec) = buildSpecs plan ∧
    (callerReport kg).totalElapsedPrinted = true ∧
    ((callerReport kg).summaryTablePrinted = true ↔ kg = .yes) := by
  refine ⟨?_, rfl, ?_⟩
  · simpa [installPerform, execPlan] using
      exec_entries_specs deps buildOp kg plan ⟨[], []⟩
  · simp [callerReport]

/-- C6 (counterexample): two runs of the command differing only in the
failure policy print different reports — the per-action summary table
is printed under KeepGoing but not under FailFast — refuting the claim
that the caller presents the same report regardless of policy. -/
theorem caller_report_depends_on_policy :
    (perform_and_exit true .yes [⟨⟨"zlib", "x64"⟩, "1.0"⟩] [("zlib", ⟨"1.1", []⟩)]
        [⟨"zlib", "x64"⟩] (fun _ => (true, 1))).performInvoked = true ∧
    (perform_and_exit true .no [⟨⟨"zlib", "x64"⟩, "1.0"⟩] [("zlib", ⟨"1.1", []⟩)]
        [⟨"zlib", "x64"⟩] (fun _ => (true, 1))).performInvoked = true ∧
    (perform_and_exit true .yes [⟨⟨"zlib", "x64"⟩, "1.0"⟩] [("zlib", ⟨"1.1", []⟩)]
        [⟨"zlib", "x64"⟩] (fun _ => (true, 1))).summaryTablePrinted = true ∧
    (perform_and_exit true .no [⟨⟨"zlib", "x64"⟩, "1.0"⟩] [("zlib", ⟨"1.1", []⟩)]
        [⟨"zlib", "x64"⟩] (fun _ => (true, 1))).summaryTablePrinted = false := by
  decide

theorem execBS_cons (deps : PackageSpec → List PackageSpec) (buildOp : PackageSpec → Bool × Nat)
    (kg : KeepGoing) (st : ExecState) (s : PackageSpec) (rest : List PackageSpec) :
    execBS deps buildOp kg st (s :: rest) =
      execBS deps buildOp kg (execStepB deps buildOp kg st s) rest := rfl

theorem execBS_append (deps : PackageSpec → List PackageSpec) (buildOp : PackageSpec → Bool × Nat)
    (kg : KeepGoing) (st : ExecState) (l₁ l₂ : List PackageSpec) :
    execBS deps buildOp kg st (l₁ ++ l₂) =
      execBS deps buildOp kg (execBS deps buildOp kg st l₁) l₂ := by
  simp [execBS, List.foldl_append]

theorem execStepB_entries_mem (deps : PackageSpec → List PackageSpec)
    (buildOp : PackageSpec → Bool × Nat) (kg : KeepGoing) (st : ExecState) (s : PackageSpec)
    {e : SummaryEntry} (he : e ∈ st.entries) :
    e ∈ (execStepB deps buildOp kg st s).entries := by
  rw [execStepB]
  split
  · exact List.mem_append_left _ he
  · split
    · exact List.mem_append_left _ he
    · exact List.mem_append_left _ he

theorem execBS_entries_mem (deps : PackageSpec → List PackageSpec)
    (buildOp : PackageSpec → Bool × Nat) (kg : KeepGoing) (bs : List PackageSpec) :
    ∀ (st : ExecState) {e : SummaryEntry}, e ∈ st.entries →
      e ∈ (execBS deps buildOp kg st bs).entries := by
  induction bs with
  | nil => intro st e he; exact he
  | cons s rest ih =>
    intro st e he
    rw [execBS_cons]
    exact ih _ (execStepB_entries_mem deps buildOp kg st s he)

theorem execBS_invoked_mem (deps : PackageSpec → List PackageSpec)
    (buildOp : PackageSpec → Bool × Nat) (kg : KeepGoing) (bs : List PackageSpec) :
    ∀ (st : ExecState) {x : PackageSpec}, x ∈ st.invoked →
      x ∈ (execBS deps buildOp kg st bs).invoked := by
  induction bs with
  | nil => intro st x hx; exact hx
  | cons s rest ih =>
    intro st x hx
    rw [execBS_cons]
    refine ih _ ?_
    rw [execStepB]
    split
    · exact hx
    · split
      · exact hx
      · exact List.mem_append_left _ hx

theorem execBS_entries_specs (deps : PackageSpec → List PackageSpec)
    (buildOp : PackageSpec → Bool × Nat) (kg : KeepGoing) (bs : List PackageSpec) :
    ∀ (st : ExecState),
      ((execBS deps buildOp kg st bs).entries).map (fun e => e.spec) =
        st.entries.map (fun e => e.spec) ++ bs := by
  induction bs with
  | nil => intro st; simp [execBS]
  | cons s rest ih =>
    intro st
    rw [execBS_cons, ih]
    rw [execStepB]
    split
    · simp
    · split <;> simp

theorem entry_unique {es : List SummaryEntry}
    (h : (es.map (fun e => e.spec)).Nodup) {e₁ e₂ : SummaryEntry}
    (h1 : e₁ ∈ es) (h2 : e₂ ∈ es) (hs : e₁.spec = e₂.spec) : e₁ = e₂ := by
  induction es with
  | nil => cases h1
  | cons a as ih =>
    rw [List.map_cons, List.nodup_cons] at h
    rcases List.mem_cons.mp h1 with rfl | h1'
    · rcases List.mem_cons.mp h2 with rfl | h2'
      · rfl
      · exact absurd (hs ▸ List.mem_map_of_mem (fun e => e.spec) h2') h.1
    · rcases List.mem_cons.mp h2 with rfl | h2'
      · exact absurd (hs ▸ List.mem_map_of_mem (fun e => e.spec) h1') h.1
      · exact ih h.2 h1' h2'

theorem outcomeOf_eq_of_mem {st : ExecState}
    (h : (st.entries.map (fun e => e.spec)).Nodup) {e : SummaryEntry}
    (he : e ∈ st.entries) : outcomeOf st e.spec = some e.outcome := by
  rw [outcomeOf]
  cases hf : st.entries.find? (fun x => decide (x.spec = e.spec)) with
  | none =>
    have := List.find?_eq_none.mp hf e he
    simp at this
  | some a =>
    have hpa : a.spec = e.spec := by simpa using List.find?_some hf
    have hma : a ∈ st.entries := List.mem_of_find?_eq_some hf
    rw [entry_unique h hma he hpa]
    rfl

theorem outcomeOf_some_entry {st : ExecState} {s : PackageSpec} {o : ActionOutcome}
    (h : outcomeOf st s = some o) :
    ∃ e ∈ st.entries, e.spec = s ∧ e.outcome = o := by
  rw [outcomeOf] at h
  cases hf : st.entries.find? (fun x => decide (x.spec = s)) with
  | none => rw [hf] at h; cases h
  | some a =>
    rw [hf] at h
    refine ⟨a, List.mem_of_find?_eq_some hf, ?_, ?_⟩
    · simpa using List.find?_some hf
    · injection h

theorem execBS_invoked_entry (deps : PackageSpec → List PackageSpec)
    (buildOp : PackageSpec → Bool × Nat) (kg : KeepGoing) (bs : List PackageSpec) :
    ∀ (st : ExecState) (x : PackageSpec), x ∈ (execBS deps buildOp kg st bs).invoked →
      x ∈ st.invoked ∨
        (⟨x, if (buildOp x).1 then .succeeded else .failed, (buildOp x).2⟩ : SummaryEntry) ∈
          (execBS deps buildOp kg st bs).entries := by
  induction bs with
  | nil => intro st x hx; exact Or.inl hx
  | cons s rest ih =>
    intro st x hx
    rw [execBS_cons] at hx ⊢
    rcases ih (execStepB deps buildOp kg st s) x hx with h | h
    · by_cases hc1 : kg = .no ∧ (∃ e ∈ st.entries, e.outcome = .failed)
      · rw [execStepB, if_pos hc1] at h
        exact Or.inl h
      · by_cases hc2 : ∃ d ∈ deps s, ∃ e ∈ st.entries, e.spec = d ∧ e.outcome ≠ .succeeded
        · rw [execStepB, if_neg hc1, if_pos hc2] at h
          exact Or.inl h
        · rw [execStepB, if_neg hc1, if_neg hc2] at h
          rcases List.mem_append.mp h with h' | h'
          · exact Or.inl h'
          · have hxs : x = s := by simpa using h'
            subst hxs
            refine Or.inr (execBS_entries_mem deps buildOp kg rest _ ?_)
            rw [execStepB, if_neg hc1, if_neg hc2]
            exact List.mem_append_right _ (by simp)
    · exact Or.inr h

theorem foldl_execStep_eq (deps : PackageSpec → List PackageSpec)
    (buildOp : PackageSpec → Bool × Nat) (kg : KeepGoing) (plan : List Action) :
    ∀ (st : ExecState),
      plan.foldl (execStep deps buildOp kg) st =
        execBS deps buildOp kg st (buildSpecs plan) := by
  induction plan with
  | nil => intro st; rfl
  | cons a rest ih =>
    intro st
    cases a with
    | build s r =>
      rw [List.foldl_cons, ih]
      rfl
    | alreadySatisfied s =>
      rw [List.foldl_cons, ih]
      rfl
    | remove s =>
      rw [List.foldl_cons, ih]
      rfl

theorem execPlan_eq_execBS (deps : PackageSpec → List PackageSpec)
    (buildOp : PackageSpec → Bool × Nat) (kg : KeepGoing) (plan : List Action) :
    execPlan deps buildOp kg plan = execBS deps buildOp kg ⟨[], []⟩ (buildSpecs plan) :=
  foldl_execStep_eq deps buildOp kg plan ⟨[], []⟩

theorem topoList_index (deps : PackageSpec → List PackageSpec) :
    ∀ (rest seen : List PackageSpec), topoList deps seen rest = true →
    ∀ (i : Nat) (s : PackageSpec), rest[i]? = some s →
    ∀ d ∈ deps s, d ∈ seen ++ rest →
    d ∈ seen ∨ ∃ j, j < i ∧ rest[j]? = some d := by
  intro rest
  induction rest with
  | nil =>
    intro seen _ i s hi
    simp at hi
  | cons s0 rest' ih =>
    intro seen htopo i s hi d hd hdmem
    rw [topoList, Bool.and_eq_true] at htopo
    obtain ⟨hd0, htail⟩ := htopo
    rw [decide_eq_true_iff] at hd0
    cases i with
    | zero =>
      rw [List.getElem?_cons_zero] at hi
      injection hi with hi
      subst hi
      rcases hd0 d hd with h | h
      · exact Or.inl h
      · exact absurd hdmem h
    | succ i' =>
      rw [List.getElem?_cons_succ] at hi
      have hdmem' : d ∈ (seen ++ [s0]) ++ rest' := by
        simpa [List.append_assoc] using hdmem
      rcases ih (seen ++ [s0]) htail i' s hi d hd hdmem' with h | ⟨j, hj, hjd⟩
      · rcases List.mem_append.mp h with h' | h'
        · exact Or.inl h'
        · have hds0 : d = s0 := by simpa using h'
          exact Or.inr ⟨0, Nat.succ_pos _, by simp [hds0]⟩
      · exact Or.inr ⟨j + 1, Nat.succ_lt_succ hj, by simpa using hjd⟩

theorem skipped_after_bad_dep (deps : PackageSpec → List PackageSpec)
    (buildOp : PackageSpec → Bool × Nat) (bs : List PackageSpec)
    (hnodup : bs.Nodup) (htopo : topoOkB deps bs = true)
    (s x : PackageSpec) (hsb : s ∈ bs) (hxd : x ∈ deps s)
    (hbad : ∃ e ∈ (execBS deps buildOp .yes ⟨[], []⟩ bs).entries,
      e.spec = x ∧ e.outcome ≠ .succeeded) :
    (⟨s, .skippedDependencyFailed, 0⟩ : SummaryEntry) ∈
      (execBS deps buildOp .yes ⟨[], []⟩ bs).entries ∧
    s ∉ (execBS deps buildOp .yes ⟨[], []⟩ bs).invoked := by
  obtain ⟨ex, hex_mem, hex_spec, hex_bad⟩ := hbad
  have hspecs : ((execBS deps buildOp .yes ⟨[], []⟩ bs).entries).map (fun e => e.spec) = bs := by
    simpa using execBS_entries_specs deps buildOp .yes bs ⟨[], []⟩
  have hnodupF : (((execBS deps buildOp .yes ⟨[], []⟩ bs).entries).map (fun e => e.spec)).Nodup := by
    rw [hspecs]; exact hnodup
  obtain ⟨i, hilen, hie⟩ := List.mem_iff_getElem.mp hsb
  have hi? : bs[i]? = some s := by rw [List.getElem?_eq_getElem hilen, hie]
  have hxbs : x ∈ bs := by
    rw [← hspecs]
    exact hex_spec ▸ List.mem_map_of_mem (fun e => e.spec) hex_mem
  rcases topoList_index deps bs [] htopo i s hi? x hxd (by simpa using hxbs) with h | ⟨j, hj, hj?⟩
  · simp at h
  · have hsplit : bs = bs.take i ++ s :: bs.drop (i + 1) := by
      conv_lhs => rw [← List.take_append_drop i bs]
      rw [List.drop_eq_getElem_cons hilen, hie]
    have hxl1 : x ∈ bs.take i := by
      have hx? : (bs.take i)[j]? = some x := by simp [List.getElem?_take, hj, hj?]
      exact List.getElem?_mem hx?
    have hFeq : execBS deps buildOp .yes ⟨[], []⟩ bs =
        execBS deps buildOp .yes
          (execStepB deps buildOp .yes (execBS deps buildOp .yes ⟨[], []⟩ (bs.take i)) s)
          (bs.drop (i + 1)) := by
      conv_lhs => rw [hsplit]
      rw [execBS_append, execBS_cons]
    have hspecs1 : ((execBS deps buildOp .yes ⟨[], []⟩ (bs.take i)).entries).map
        (fun e => e.spec) = bs.take i := by
      simpa using execBS_entries_specs deps buildOp .yes (bs.take i) ⟨[], []⟩
    have hx_in_map : x ∈ ((execBS deps buildOp .yes ⟨[], []⟩ (bs.take i)).entries).map
        (fun e => e.spec) := by rw [hspecs1]; exact hxl1
    obtain ⟨e1, he1_mem, he1_spec⟩ := List.mem_map.mp hx_in_map
    have he1_final : e1 ∈ (execBS deps buildOp .yes ⟨[], []⟩ bs).entries := by
      rw [hFeq]
      exact execBS_entries_mem deps buildOp .yes _ _
        (execStepB_entries_mem deps buildOp .yes _ s he1_mem)
    have he1_eq : e1 = ex :=
      entry_unique hnodupF he1_final hex_mem (by rw [he1_spec, hex_spec])
    have he1_bad : e1.outcome ≠ .succeeded := by rw [he1_eq]; exact hex_bad
    have hc2 : ∃ d ∈ deps s, ∃ e ∈ (execBS deps buildOp .yes ⟨[], []⟩ (bs.take i)).entries,
        e.spec = d ∧ e.outcome ≠ .succeeded :=
      ⟨x, hxd, e1, he1_mem, he1_spec, he1_bad⟩
    have hstep : execStepB deps buildOp .yes (execBS deps buildOp .yes ⟨[], []⟩ (bs.take i)) s =
        { execBS deps buildOp .yes ⟨[], []⟩ (bs.take i) with
          entries := (execBS deps buildOp .yes ⟨[], []⟩ (bs.take i)).entries ++
            [⟨s, .skippedDependencyFailed, 0⟩] } := by
      rw [execStepB, if_neg (by simp), if_pos hc2]
    have hskip : (⟨s, .skippedDependencyFailed, 0⟩ : SummaryEntry) ∈
        (execBS deps buildOp .yes ⟨[], []⟩ bs).entries := by
      rw [hFeq, hstep]
      exact execBS_entries_mem deps buildOp .yes _ _ (List.mem_append_right _ (by simp))
    refine ⟨hskip, ?_⟩
    intro hs_inv
    rcases execBS_invoked_entry deps buildOp .yes bs ⟨[], []⟩ s hs_inv with h | h
    · simp at h
    · have heq := entry_unique hnodupF h hskip rfl
      have houtc : (if (buildOp s).1 then ActionOutcome.succeeded else .failed) =
          .skippedDependencyFailed := congrArg SummaryEntry.outcome heq
      cases hbo : (buildOp s).1 <;> rw [hbo] at houtc <;> exact absurd houtc (by simp)

theorem keep_going_cascade_bs (deps : PackageSpec → List PackageSpec)
    (buildOp : PackageSpec → Bool × Nat) (bs : List PackageSpec) (B : PackageSpec)
    (hnodup : bs.Nodup) (htopo : topoOkB deps bs = true)
    (hinv : B ∈ (execBS deps buildOp .yes ⟨[], []⟩ bs).invoked)
    (hfail : (buildOp B).1 = false) :
    outcomeOf (execBS deps buildOp .yes ⟨[], []⟩ bs) B = some .failed ∧
    (∀ s ∈ bs, DependsVia deps bs s B →
      outcomeOf (execBS deps buildOp .yes ⟨[], []⟩ bs) s = some .skippedDependencyFailed ∧
        s ∉ (execBS deps buildOp .yes ⟨[], []⟩ bs).invoked) ∧
    (∀ s ∈ bs,
      (∀ d ∈ deps s, ∀ o, outcomeOf (execBS deps buildOp .yes ⟨[], []⟩ bs) d = some o →
        o = .succeeded) →
      s ∈ (execBS deps buildOp .yes ⟨[], []⟩ bs).invoked) := by
  have hspecs : ((execBS deps buildOp .yes ⟨[], []⟩ bs).entries).map (fun e => e.spec) = bs := by
    simpa using execBS_entries_specs deps buildOp .yes bs ⟨[], []⟩
  have hnodupF : (((execBS deps buildOp .yes ⟨[], []⟩ bs).entries).map (fun e => e.spec)).Nodup := by
    rw [hspecs]; exact hnodup
  have hBentry : (⟨B, .failed, (buildOp B).2⟩ : SummaryEntry) ∈
      (execBS deps buildOp .yes ⟨[], []⟩ bs).entries := by
    rcases execBS_invoked_entry deps buildOp .yes bs ⟨[], []⟩ B hinv with h | h
    · simp at h
    · rw [hfail] at h
      simpa using h
  have ha : outcomeOf (execBS deps buildOp .yes ⟨[], []⟩ bs) B = some .failed := by
    simpa using outcomeOf_eq_of_mem hnodupF hBentry
  refine ⟨ha, ?_, ?_⟩
  · have hb : ∀ s B', DependsVia deps bs s B' → B' = B → s ∈ bs →
        outcomeOf (execBS deps buildOp .yes ⟨[], []⟩ bs) s = some .skippedDependencyFailed ∧
          s ∉ (execBS deps buildOp .yes ⟨[], []⟩ bs).invoked := by
      intro s B' hdep
      induction hdep with
      | direct hbd =>
        intro hBeq hsb
        rw [hBeq] at hbd
        have hres := skipped_after_bad_dep deps buildOp bs hnodup htopo _ _ hsb hbd
          ⟨⟨B, .failed, (buildOp B).2⟩, hBentry, rfl, by simp⟩
        exact ⟨by simpa using outcomeOf_eq_of_mem hnodupF hres.1, hres.2⟩
      | step hmd hmb hrest ih =>
        intro hBeq hsb
        have hm := ih hBeq hmb
        obtain ⟨e, he_mem, he_spec, he_outc⟩ := outcomeOf_some_entry hm.1
        have hres := skipped_after_bad_dep deps buildOp bs hnodup htopo _ _ hsb hmd
          ⟨e, he_mem, he_spec, by rw [he_outc]; simp⟩
        exact ⟨by simpa using outcomeOf_eq_of_mem hnodupF hres.1, hres.2⟩
    intro s hs hdep
    exact hb s B hdep rfl hs
  · intro s hs hgood
    obtain ⟨i, hilen, hie⟩ := List.mem_iff_getElem.mp hs
    have hsplit : bs = bs.take i ++ s :: bs.drop (i + 1) := by
      conv_lhs => rw [← List.take_append_drop i bs]
      rw [List.drop_eq_getElem_cons hilen, hie]
    have hFeq : execBS deps buildOp .yes ⟨[], []⟩ bs =
        execBS deps buildOp .yes
          (execStepB deps buildOp .yes (execBS deps buildOp .yes ⟨[], []⟩ (bs.take i)) s)
          (bs.drop (i + 1)) := by
      conv_lhs => rw [hsplit]
      rw [execBS_append, execBS_cons]
    have hc2 : ¬∃ d ∈ deps s, ∃ e ∈ (execBS deps buildOp .yes ⟨[], []⟩ (bs.take i)).entries,
        e.spec = d ∧ e.outcome ≠ .succeeded := by
      rintro ⟨d, hd, e, he_mem, he_spec, he_bad⟩
      have he_final : e ∈ (execBS deps buildOp .yes ⟨[], []⟩ bs).entries := by
        rw [hFeq]
        exact execBS_entries_mem deps buildOp .yes _ _
          (execStepB_entries_mem deps buildOp .yes _ s he_mem)
      have houtc : outcomeOf (execBS deps buildOp .yes ⟨[], []⟩ bs) d = some e.outcome := by
        rw [← he_spec]
        exact outcomeOf_eq_of_mem hnodupF he_final
      exact he_bad (hgood d hd e.outcome houtc)
    have hstep : execStepB deps buildOp .yes
        (execBS deps buildOp .yes ⟨[], []⟩ (bs.take i)) s =
        { entries := (execBS deps buildOp .yes ⟨[], []⟩ (bs.take i)).entries ++
            [⟨s, if (buildOp s).1 then .succeeded else .failed, (buildOp s).2⟩],
          invoked := (execBS deps buildOp .yes ⟨[], []⟩ (bs.take i)).invoked ++ [s] } := by
      rw [execStepB, if_neg (by simp), if_neg hc2]
    rw [hFeq]
    refine execBS_invoked_mem deps buildOp .yes _ _ ?_
    rw [hstep]
    exact List.mem_append_right _ (by simp)

/-- C5: in a KeepGoing run over a deduplicated, topologically ordered
plan in which the build of some attempted action B fails, B is recorded
Failed; every Build action transitively depending on B (through Build
identities of the plan) is recorded Skipped(DependencyFailed) and its
build operation is never invoked; and every Build action none of whose
direct dependencies has a non-Succeeded recorded outcome is still
attempted. -/
theorem keep_going_cascade (deps : PackageSpec → List PackageSpec)
    (buildOp : PackageSpec → Bool × Nat) (plan : List Action) (B : PackageSpec)
    (hnodup : (buildSpecs plan).Nodup)
    (htopo : topoOkB deps (buildSpecs plan) = true)
    (hinv : B ∈ (execPlan deps buildOp .yes plan).invoked)
    (hfail : (buildOp B).1 = false) :
    outcomeOf (execPlan deps buildOp .yes plan) B = some .failed ∧
    (∀ s ∈ buildSpecs plan, DependsVia deps (buildSpecs plan) s B →
      outcomeOf (execPlan deps buildOp .yes plan) s = some .skippedDependencyFailed ∧
        s ∉ (execPlan deps buildOp .yes plan).invoked) ∧
    (∀ s ∈ buildSpecs plan,
      (∀ d ∈ deps s, ∀ o, outcomeOf (execPlan deps buildOp .yes plan) d = some o →
        o = .succeeded) →
      s ∈ (execPlan deps buildOp .yes plan).invoked) := by
  rw [execPlan_eq_execBS] at hinv ⊢
  exact keep_going_cascade_bs deps buildOp (buildSpecs plan) B hnodup htopo hinv hfail

theorem keep_going_cascade_witness :
    outcomeOf (execPlan chainDeps chainBuildOp .yes chainPlan) ⟨"b", "x"⟩ = some .failed ∧
    outcomeOf (execPlan chainDeps chainBuildOp .yes chainPlan) ⟨"c", "x"⟩ =
      some .skippedDependencyFailed ∧
    ⟨"c", "x"⟩ ∉ (execPlan chainDeps chainBuildOp .yes chainPlan).invoked ∧
    ⟨"a", "x"⟩ ∈ (execPlan chainDeps chainBuildOp .yes chainPlan).invoked :=
  ⟨(keep_going_cascade chainDeps chainBuildOp chainPlan ⟨"b", "x"⟩
      (by decide) (by decide) (by decide) (by decide)).1,
   ((keep_going_cascade chainDeps chainBuildOp chainPlan ⟨"b", "x"⟩
      (by decide) (by decide) (by decide) (by decide)).2.1 ⟨"c", "x"⟩ (by decide)
      (DependsVia.direct (by decide))).1,
   ((keep_going_cascade chainDeps chainBuildOp chainPlan ⟨"b", "x"⟩
      (by decide) (by decide) (by decide) (by decide)).2.1 ⟨"c", "x"⟩ (by decide)
      (DependsVia.direct (by decide))).2,
   by decide⟩

theorem reachableSet_eq_iter (prov : PortProvider) (queued : List PackageSpec) :
    reachableSet prov queued =
      reachIter prov queued ((universeList prov queued).length + 1) := rfl

theorem mem_reachStep_iff {prov : PortProvider} {u r : List PackageSpec} {x : PackageSpec} :
    x ∈ reachStep prov u r ↔ x ∈ u ∧ (x ∈ r ∨ ∃ p ∈ r, x ∈ depsOf prov p) := by
  simp [reachStep, List.mem_filter]

theorem mem_universe_of_queued {prov : PortProvider} {queued : List PackageSpec}
    {s : PackageSpec} (h : s ∈ queued) : s ∈ universeList prov queued := by
  simp only [universeList, List.mem_dedup, List.mem_append]
  exact Or.inl h

theorem get_control_file_mem {prov : PortProvider} {n : String} {scf : SourceControlFile}
    (h : get_control_file prov n = some scf) : ∃ p ∈ prov, p.1 = n ∧ p.2 = scf := by
  rw [get_control_file] at h
  cases hf : prov.find? (fun p => decide (p.1 = n)) with
  | none => rw [hf] at h; cases h
  | some pr =>
    rw [hf] at h
    refine ⟨pr, List.mem_of_find?_eq_some hf, ?_, ?_⟩
    · simpa using List.find?_some hf
    · simpa using h

theorem universe_closed {prov : PortProvider} {queued : List PackageSpec}
    {s d : PackageSpec} (hs : s ∈ universeList prov queued)
    (hd : d ∈ depsOf prov s) : d ∈ universeList prov queued := by
  rw [depsOf] at hd
  cases hc : get_control_file prov s.name with
  | none => rw [hc] at hd; cases hd
  | some scf =>
    rw [hc] at hd
    obtain ⟨dn, hdn, rfl⟩ := List.mem_map.mp hd
    obtain ⟨pr, hpr_mem, hpr_name, hpr_scf⟩ := get_control_file_mem hc
    have hdn_names : dn ∈ prov.flatMap (fun p => p.1 :: p.2.depends) :=
      List.mem_flatMap.mpr ⟨pr, hpr_mem, List.mem_cons_of_mem _ (hpr_scf ▸ hdn)⟩
    have htrip : s.triplet ∈ queued.map (fun q => q.triplet) := by
      have hs' := hs
      simp only [universeList, List.mem_dedup, List.mem_append] at hs'
      rcases hs' with h | h
      · exact List.mem_map_of_mem _ h
      · obtain ⟨t, ht, hsm⟩ := List.mem_flatMap.mp h
        obtain ⟨n', hn', rfl⟩ := List.mem_map.mp hsm
        simpa using ht
    simp only [universeList, List.mem_dedup, List.mem_append]
    right
    exact List.mem_flatMap.mpr ⟨s.triplet, htrip, List.mem_map.mpr ⟨dn, hdn_names, rfl⟩⟩

theorem reachIter_succ (prov : PortProvider) (queued : List PackageSpec) (k : Nat) :
    reachIter prov queued (k + 1) =
      reachStep prov (universeList prov queued) (reachIter prov queued k) := by
  rw [reachIter, Function.iterate_succ_apply', reachIter]

theorem reachIter_subset_universe (prov : PortProvider) (queued : List PackageSpec) :
    ∀ (k : Nat), ∀ x ∈ reachIter prov queued k, x ∈ universeList prov queued := by
  intro k
  cases k with
  | zero => intro x hx; exact (List.mem_filter.mp hx).1
  | succ k =>
    intro x hx
    rw [reachIter_succ] at hx
    exact (List.mem_filter.mp hx).1

theorem reachIter_mono_succ (prov : PortProvider) (queued : List PackageSpec) (k : Nat) :
    ∀ x ∈ reachIter prov queued k, x ∈ reachIter prov queued (k + 1) := by
  intro x hx
  rw [reachIter_succ]
  exact mem_reachStep_iff.mpr ⟨reachIter_subset_universe prov queued k x hx, Or.inl hx⟩

theorem reachIter_mono (prov : PortProvider) (queued : List PackageSpec) :
    ∀ (i j : Nat), i ≤ j →
      ∀ x ∈ reachIter prov queued i, x ∈ reachIter prov queued j := by
  intro i j hij
  induction j, hij using Nat.le_induction with
  | base => intro x hx; exact hx
  | succ j _ ih => intro x hx; exact reachIter_mono_succ prov queued j x (ih x hx)

theorem reachIter_nodup (prov : PortProvider) (queued : List PackageSpec) (k : Nat) :
    (reachIter prov queued k).Nodup := by
  cases k with
  | zero => exact (List.nodup_dedup _).filter _
  | succ k =>
    rw [reachIter_succ, reachStep]
    exact (List.nodup_dedup _).filter _

theorem reachIter_stabilizes (prov : PortProvider) (queued : List PackageSpec) :
    ∃ k ≤ (universeList prov queued).length,
      ∀ x ∈ reachIter prov queued (k + 1), x ∈ reachIter prov queued k := by
  by_contra hcon
  push_neg at hcon
  have hlen : ∀ (k : Nat), k ≤ (universeList prov queued).length + 1 →
      k ≤ (reachIter prov queued k).length := by
    intro k
    induction k with
    | zero => intro _; exact Nat.zero_le _
    | succ k ih =>
      intro hk
      obtain ⟨x, hx1, hx0⟩ := hcon k (by omega)
      have hsub : (x :: reachIter prov queued k) ⊆ reachIter prov queued (k + 1) := by
        intro y hy
        rcases List.mem_cons.mp hy with rfl | hy'
        · exact hx1
        · exact reachIter_mono_succ prov queued k y hy'
      have hnd : (x :: reachIter prov queued k).Nodup :=
        List.nodup_cons.mpr ⟨hx0, reachIter_nodup prov queued k⟩
      have hle := (List.subperm_of_subset hnd hsub).length_le
      have hkk := ih (by omega)
      simp only [List.length_cons] at hle
      omega
  have h1 := hlen ((universeList prov queued).length + 1) (Nat.le_refl _)
  have h2 : (reachIter prov queued ((universeList prov queued).length + 1)).length ≤
      (universeList prov queued).length :=
    (List.subperm_of_subset (reachIter_nodup prov queued _)
      (fun x hx => reachIter_subset_universe prov queued _ x hx)).length_le
  omega

theorem reachIter_stable_above (prov : PortProvider) (queued : List PackageSpec) (k : Nat)
    (hst : ∀ x ∈ reachIter prov queued (k + 1), x ∈ reachIter prov queued k) :
    ∀ (j : Nat), ∀ x ∈ reachIter prov queued (k + j), x ∈ reachIter prov queued k := by
  intro j
  induction j with
  | zero => intro x hx; exact hx
  | succ j ih =>
    intro x hx
    rw [show k + (j + 1) = (k + j) + 1 from rfl, reachIter_succ] at hx
    rcases mem_reachStep_iff.mp hx with ⟨hu, h | ⟨p, hp, hdp⟩⟩
    · exact ih x h
    · refine hst x ?_
      rw [reachIter_succ]
      exact mem_reachStep_iff.mpr ⟨hu, Or.inr ⟨p, ih p hp, hdp⟩⟩

theorem reachableSet_closed (prov : PortProvider) (queued : List PackageSpec) :
    ∀ x ∈ reachableSet prov queued, ∀ d ∈ depsOf prov x,
      d ∈ reachableSet prov queued := by
  obtain ⟨k, hk, hst⟩ := reachIter_stabilizes prov queued
  intro x hx d hd
  rw [reachableSet_eq_iter] at hx ⊢
  have hxu := reachIter_subset_universe prov queued _ x hx
  have hdu := universe_closed hxu hd
  have hdn2 : d ∈ reachIter prov queued
      (((universeList prov queued).length + 1) + 1) := by
    rw [reachIter_succ]
    exact mem_reachStep_iff.mpr ⟨hdu, Or.inr ⟨x, hx, hd⟩⟩
  have harith : ((universeList prov queued).length + 1) + 1 =
      k + (((universeList prov queued).length + 1) + 1 - k) := by omega
  rw [harith] at hdn2
  have h1 := reachIter_stable_above prov queued k hst _ d hdn2
  exact reachIter_mono prov queued k ((universeList prov queued).length + 1)
    (by omega) d h1

theorem queued_subset_reachableSet (prov : PortProvider) (queued : List PackageSpec) :
    ∀ s ∈ queued, s ∈ reachableSet prov queued := by
  intro s hs
  rw [reachableSet_eq_iter]
  refine reachIter_mono prov queued 0 _ (Nat.zero_le _) s ?_
  simp only [reachIter, Function.iterate_zero]
  show s ∈ (universeList prov queued).filter (fun s => decide (s ∈ queued))
  exact List.mem_filter.mpr ⟨mem_universe_of_queued hs, by simpa using hs⟩

theorem reachable_mem_reachableSet {prov : PortProvider} {queued : List PackageSpec}
    {x : PackageSpec} (h : Reachable prov queued x) : x ∈ reachableSet prov queued := by
  induction h with
  | root hs => exact queued_subset_reachableSet prov queued _ hs
  | step h₁ h₂ ih => exact reachableSet_closed prov queued _ ih _ h₂

theorem emitAction_spec (db : StatusDb) (queued : List PackageSpec) (prov : PortProvider)
    (emitted : List Action) (s : PackageSpec) :
    (emitAction db queued prov emitted s).spec = s := by
  rw [emitAction]
  split
  · rfl
  · split <;> rfl

theorem topo_inv_append (prov : PortProvider) (emitted newActs : List Action)
    (hinv : ∀ (i : Nat) (a : Action), emitted[i]? = some a →
      ∀ d ∈ depsOf prov a.spec, ∃ j, j < i ∧ ∃ b, emitted[j]? = some b ∧ b.spec = d)
    (hnew : ∀ a ∈ newActs, ∀ d ∈ depsOf prov a.spec, ∃ b ∈ emitted, b.spec = d) :
    ∀ (i : Nat) (a : Action), (emitted ++ newActs)[i]? = some a →
      ∀ d ∈ depsOf prov a.spec,
        ∃ j, j < i ∧ ∃ b, (emitted ++ newActs)[j]? = some b ∧ b.spec = d := by
  intro i a hia d hd
  by_cases hi : i < emitted.length
  · rw [List.getElem?_append_left hi] at hia
    obtain ⟨j, hj, b, hb, hbs⟩ := hinv i a hia d hd
    exact ⟨j, hj, b, by rw [List.getElem?_append_left (Nat.lt_trans hj hi)]; exact hb, hbs⟩
  · push_neg at hi
    rw [List.getElem?_append_right hi] at hia
    have ha_mem : a ∈ newActs := List.getElem?_mem hia
    obtain ⟨b, hb_mem, hbs⟩ := hnew a ha_mem d hd
    obtain ⟨j, hjlen, hje⟩ := List.mem_iff_getElem.mp hb_mem
    refine ⟨j, by omega, b, ?_, hbs⟩
    rw [List.getElem?_append_left hjlen, List.getElem?_eq_getElem hjlen, hje]

theorem kahnLoop_topo (db : StatusDb) (prov : PortProvider) (queued : List PackageSpec) :
    ∀ (fuel : Nat) (emitted : List Action) (remaining : List PackageSpec)
      (plan : List Action),
      (∀ (i : Nat) (a : Action), emitted[i]? = some a →
        ∀ d ∈ depsOf prov a.spec, ∃ j, j < i ∧ ∃ b, emitted[j]? = some b ∧ b.spec = d) →
      kahnLoop db prov queued fuel emitted remaining = .ok plan →
      ∀ (i : Nat) (a : Action), plan[i]? = some a →
        ∀ d ∈ depsOf prov a.spec, ∃ j, j < i ∧ ∃ b, plan[j]? = some b ∧ b.spec = d := by
  intro fuel
  induction fuel with
  | zero =>
    intro emitted remaining plan hinv hk
    cases remaining with
    | nil =>
      obtain rfl : emitted = plan := by simpa [kahnLoop] using hk
      exact hinv
    | cons r rs => simp [kahnLoop] at hk
  | succ fuel ih =>
    intro emitted remaining plan hinv hk
    cases remaining with
    | nil =>
      obtain rfl : emitted = plan := by simpa [kahnLoop] using hk
      exact hinv
    | cons r rs =>
      by_cases hrdy : (r :: rs).filter (readyFor prov emitted) = []
      · simp only [kahnLoop] at hk
        rw [if_pos hrdy] at hk
        cases hk
      · simp only [kahnLoop] at hk
        rw [if_neg hrdy] at hk
        refine ih _ _ plan ?_ hk
        refine topo_inv_append prov emitted _ hinv ?_
        intro a ha d hd
        obtain ⟨s, hs_mem, rfl⟩ := List.mem_map.mp ha
        rw [emitAction_spec] at hd
        have hready := (List.mem_filter.mp hs_mem).2
        rw [readyFor, decide_eq_true_iff] at hready
        exact hready d hd

/-- C3: every plan produced by `resolve` is topologically sorted: each
declared dependency of each Build action appears at a strictly smaller
index in the plan (in particular no Build action precedes one of its
own dependencies), or is an AlreadySatisfied entry of the plan. -/
theorem plan_topologically_sorted (db : StatusDb) (prov : PortProvider)
    (queued : List PackageSpec) (plan : List Action)
    (hres : resolve db prov queued = .ok plan)
    (i : Nat) (s : PackageSpec) (reason : BuildReason)
    (hi : plan[i]? = some (.build s reason))
    (d : PackageSpec) (hd : d ∈ depsOf prov s) :
    (∃ j, j < i ∧ ∃ a, plan[j]? = some a ∧ Action.spec a = d) ∨
      (Action.alreadySatisfied d) ∈ plan := by
  left
  simp only [resolve] at hres
  rcases hk : kahnLoop db prov queued (sortSpecs (reachableSet prov queued)).length []
      (sortSpecs (reachableSet prov queued)) with e | p
  · rw [hk] at hres
    simp at hres
  · rw [hk] at hres
    simp only [] at hres
    split at hres
    · have hp : p = plan := by
        injection hres
      subst hp
      have htopo := kahnLoop_topo db prov queued _ [] _ p
        (by intro i a h; simp at h) hk
      obtain ⟨j, hj, b, hb, hbs⟩ := htopo i _ hi d hd
      exact ⟨j, hj, b, hb, hbs⟩
    · cases hres

theorem plan_topologically_sorted_witness :
    (∃ j, j < 1 ∧ ∃ a,
      [Action.alreadySatisfied ⟨"b", "x"⟩,
       Action.build ⟨"a", "x"⟩ .versionMismatch][j]? = some a ∧
      Action.spec a = ⟨"b", "x"⟩) ∨
    (Action.alreadySatisfied ⟨"b", "x"⟩) ∈
      [Action.alreadySatisfied ⟨"b", "x"⟩,
       Action.build ⟨"a", "x"⟩ .versionMismatch] :=
  plan_topologically_sorted
    [⟨⟨"a", "x"⟩, "1.0"⟩, ⟨⟨"b", "x"⟩, "1.0"⟩]
    [("a", ⟨"1.1", ["b"]⟩), ("b", ⟨"1.0", []⟩)]
    [⟨"a", "x"⟩]
    [Action.alreadySatisfied ⟨"b", "x"⟩, Action.build ⟨"a", "x"⟩ .versionMismatch]
    (by rfl) 1 ⟨"a", "x"⟩ .versionMismatch (by rfl) ⟨"b", "x"⟩ (by decide)

theorem kahnLoop_cycle (db : StatusDb) (prov : PortProvider) (queued : List PackageSpec)
    (c : List PackageSpec) (hc : CycleSet prov c) :
    ∀ (fuel : Nat) (emitted : List Action) (remaining : List PackageSpec),
      (∀ x ∈ c, ∀ a ∈ emitted, Action.spec a ≠ x) →
      (∀ x ∈ c, x ∈ remaining) →
      ∃ members,
        kahnLoop db prov queued fuel emitted remaining =
          .error (.dependencyCycle members) ∧
        ∀ x ∈ c, x ∈ members := by
  obtain ⟨hcne, hcyc⟩ := hc
  have hcx : ∃ x, x ∈ c := by
    cases c with
    | nil => exact absurd rfl hcne
    | cons x xs => exact ⟨x, List.mem_cons_self x xs⟩
  intro fuel
  induction fuel with
  | zero =>
    intro emitted remaining hnoemit hrem
    cases remaining with
    | nil =>
      obtain ⟨x, hx⟩ := hcx
      exact absurd (hrem x hx) (by simp)
    | cons r rs => exact ⟨r :: rs, rfl, hrem⟩
  | succ fuel ih =>
    intro emitted remaining hnoemit hrem
    cases remaining with
    | nil =>
      obtain ⟨x, hx⟩ := hcx
      exact absurd (hrem x hx) (by simp)
    | cons r rs =>
      by_cases hrdy : (r :: rs).filter (readyFor prov emitted) = []
      · refine ⟨r :: rs, ?_, hrem⟩
        simp only [kahnLoop]
        rw [if_pos hrdy]
      · have hstep : kahnLoop db prov queued (fuel + 1) emitted (r :: rs) =
            kahnLoop db prov queued fuel
              (emitted ++ ((r :: rs).filter (readyFor prov emitted)).map
                (emitAction db queued prov emitted))
              ((r :: rs).filter (fun s => !readyFor prov emitted s)) := by
          simp only [kahnLoop]
          rw [if_neg hrdy]
        rw [hstep]
        refine ih _ _ ?_ ?_
        · intro x hx a ha
          rcases List.mem_append.mp ha with h | h
          · exact hnoemit x hx a h
          · obtain ⟨s, hs_mem, rfl⟩ := List.mem_map.mp h
            rw [emitAction_spec]
            rintro rfl
            have hready := (List.mem_filter.mp hs_mem).2
            rw [readyFor, decide_eq_true_iff] at hready
            obtain ⟨y, hy_c, hy_dep⟩ := hcyc s hx
            obtain ⟨b, hb_mem, hbs⟩ := hready y hy_dep
            exact hnoemit y hy_c b hb_mem hbs
        · intro x hx
          refine List.mem_filter.mpr ⟨hrem x hx, ?_⟩
          cases hrf : readyFor prov emitted x with
          | false => simp
          | true =>
            exfalso
            rw [readyFor, decide_eq_true_iff] at hrf
            obtain ⟨y, hy_c, hy_dep⟩ := hcyc x hx
            obtain ⟨b, hb_mem, hbs⟩ := hrf y hy_dep
            exact hnoemit y hy_c b hb_mem hbs

/-- C4: whenever the identities reachable from the queued requests
contain a dependency cycle (a nonempty set each of whose members
declares a dependency inside the set), `resolve` — a total function,
so it always terminates — fails with a DependencyCycle error whose
member list contains every identity of the cycle; no plan (truncated
or otherwise) is returned. -/
theorem cycle_causes_resolution_failure (db : StatusDb) (prov : PortProvider)
    (queued : List PackageSpec) (c : List PackageSpec)
    (hc : CycleSet prov c) (hreach : ∀ x ∈ c, Reachable prov queued x) :
    ∃ members,
      resolve db prov queued = .error (.dependencyCycle members) ∧
      ∀ x ∈ c, x ∈ members := by
  have hrem : ∀ x ∈ c, x ∈ sortSpecs (reachableSet prov queued) := fun x hx =>
    mem_sortSpecs.mpr (reachable_mem_reachableSet (hreach x hx))
  obtain ⟨members, hk, hmem⟩ :=
    kahnLoop_cycle db prov queued c hc _ [] _ (by simp) hrem
  refine ⟨members, ?_, hmem⟩
  simp only [resolve]
  rw [hk]

theorem cycle_causes_resolution_failure_witness :
    ([⟨"a", "x"⟩, (⟨"b", "x"⟩ : PackageSpec)] ≠ [] ∧
      ∀ x ∈ [⟨"a", "x"⟩, (⟨"b", "x"⟩ : PackageSpec)],
        ∃ y ∈ [⟨"a", "x"⟩, (⟨"b", "x"⟩ : PackageSpec)],
          y ∈ depsOf [("a", ⟨"1.1", ["b"]⟩), ("b", ⟨"1.0", ["a"]⟩)] x) ∧
    ∃ members,
      resolve [⟨⟨"a", "x"⟩, "1.0"⟩, ⟨⟨"b", "x"⟩, "1.0"⟩]
          [("a", ⟨"1.1", ["b"]⟩), ("b", ⟨"1.0", ["a"]⟩)] [⟨"a", "x"⟩] =
        .error (.dependencyCycle members) ∧
      ∀ x ∈ [⟨"a", "x"⟩, (⟨"b", "x"⟩ : PackageSpec)], x ∈ members :=
  ⟨⟨by decide, by decide⟩,
   cycle_causes_resolution_failure
     [⟨⟨"a", "x"⟩, "1.0"⟩, ⟨⟨"b", "x"⟩, "1.0"⟩]
     [("a", ⟨"1.1", ["b"]⟩), ("b", ⟨"1.0", ["a"]⟩)]
     [⟨"a", "x"⟩] [⟨"a", "x"⟩, ⟨"b", "x"⟩]
     ⟨by decide, by decide⟩
     (by
       intro x hx
       simp only [List.mem_cons, List.not_mem_nil, or_false] at hx
       rcases hx with rfl | rfl
       · exact Reachable.root (by simp)
       · exact @Reachable.step [("a", ⟨"1.1", ["b"]⟩), ("b", ⟨"1.0", ["a"]⟩)]
           [⟨"a", "x"⟩] ⟨"a", "x"⟩ ⟨"b", "x"⟩ (Reachable.root (by simp)) (by decide))⟩

end VcpkgUpgrade
